import Mathlib

/-!
# SentinelAI — diff-processing and line-reconciliation engine

Shallow embedding of `src/services/diff.ts` (`DiffService`) and the
reconciliation part of `src/handlers/pr-handler.ts` (`buildGithubComments`),
together with proofs checking the natural-language specification against it.

JavaScript strings are modelled as `String` (processed mostly through their
`List Char` data); JS `number` values that only ever hold integers are
modelled as `Nat`/`Int`; `null`/`undefined` results as `Option`; JS `Map`s as
association lists in insertion order; JS `Set`s as lists with membership.
-/

set_option maxRecDepth 2000

/-! ## Generic character-list helpers (JS string primitives) -/

/-- Prefix test on char lists (JS `String.prototype.startsWith`). -/
def listStartsWith : List Char → List Char → Bool
  | [], _ => true
  | _ :: _, [] => false
  | p :: ps, c :: cs => p == c && listStartsWith ps cs

/-- JS `String.prototype.endsWith` on char lists. -/
def listEndsWith (suf s : List Char) : Bool :=
  listStartsWith suf.reverse s.reverse

/-- JS `text.split("\n")`: splits at every newline; `""` yields `[""]`,
a trailing newline yields a trailing empty line. -/
def splitLines : List Char → List (List Char)
  | [] => [[]]
  | '\n' :: rest => [] :: splitLines rest
  | c :: rest =>
    match splitLines rest with
    | [] => [[c]]
    | l :: ls => (c :: l) :: ls

/-- JS `lines.join("\n")`. -/
def joinLines : List (List Char) → List Char
  | [] => []
  | [l] => l
  | l :: ls => l ++ '\n' :: joinLines ls

/-- Whitespace set trimmed by JS `String.prototype.trim` (the subset relevant
to diff text). -/
def isJsSpace (c : Char) : Bool :=
  c == ' ' || c == '\t' || c == '\n' || c == '\r'

/-- JS `String.prototype.trim` on char lists. -/
def trimChars (cs : List Char) : List Char :=
  ((cs.dropWhile isJsSpace).reverse.dropWhile isJsSpace).reverse

/-- Greedily consume decimal digits, accumulating their value (the `\d+` part
of a regex after its first digit). -/
def takeDigits : List Char → Nat → Nat × List Char
  | [], acc => (acc, [])
  | c :: rest, acc =>
    if c.isDigit then takeDigits rest (acc * 10 + (c.toNat - 48)) else (acc, c :: rest)

/-- Match `\d+` (at least one digit) at the head, returning its value and the
remaining input. -/
def parseDigits : List Char → Option (Nat × List Char)
  | [] => none
  | c :: rest =>
    if c.isDigit then some (takeDigits rest (c.toNat - 48)) else none

/-- Match the optional regex group `(?:,\d+)?`: consume `,` followed by digits
when both are present, otherwise consume nothing (the backtracking of the
optional group; a lone `,` is left in place). -/
def skipCommaDigits (cs : List Char) : List Char :=
  match cs with
  | ',' :: rest =>
    match parseDigits rest with
    | some (_, r) => r
    | none => ',' :: rest
  | _ => cs

/-- Require the literal `pre` at the head of the input and return what follows. -/
def expectChars (pre cs : List Char) : Option (List Char) :=
  if listStartsWith pre cs then some (cs.drop pre.length) else none

/-- JS `patch.lastIndexOf("\n", k)` scanning downward from position `k`:
the largest index `≤ k` holding a newline, `-1` when there is none. -/
def lastNLDown (cs : List Char) : Nat → Int
  | 0 => if cs.get? 0 == some '\n' then 0 else -1
  | k + 1 => if cs.get? (k + 1) == some '\n' then ((k : Int) + 1) else lastNLDown cs k

/-- JS `patch.lastIndexOf("\n", fromIdx)` (with the `fromIndex` clamping JS
performs: negative values behave like `0`, values past the end like the last
index). -/
def lastIndexOfNL (cs : List Char) (fromIdx : Int) : Int :=
  lastNLDown cs (min fromIdx.toNat (cs.length - 1))

/-! ## `DiffService` (src/services/diff.ts) -/

/-- The `FileDiff` record — per-file output record of `DiffService.parse`.  The JS
`Map<number, number>` is an insertion-ordered map, modelled as an association
list in insertion order; `newFileLine` is a JS number that the code can drive
below `1`, hence `Int` values. -/
structure FileDiff where
  path : String
  patch : String
  lineMap : List (Nat × Int)
deriving DecidableEq, Repr

/-- The single shape of path pattern occurring in `NOISE_PATH_PATTERNS`:
every regex in that list is (extensionally, on newline-free paths) either an
end-anchored literal (`/foo\.lock$/`, `/.*\.min\.js$/`) or an unanchored
literal (`/dist\//`). -/
inductive NoisePattern where
  | endsWith (s : String)
  | containsStr (s : String)
deriving DecidableEq, Repr

/-- Substring test (JS `RegExp.test` for an unanchored literal pattern). -/
def listContainsSub (needle : List Char) : List Char → Bool
  | [] => listStartsWith needle []
  | c :: cs => listStartsWith needle (c :: cs) || listContainsSub needle cs

/-- Evaluates `re.test(path)` for the two pattern shapes above. -/
def matchesPattern (pat : NoisePattern) (path : String) : Bool :=
  match pat with
  | .endsWith s => listEndsWith s.data path.data
  | .containsStr s => listContainsSub s.data path.data

/-- The module-level constant `NOISE_PATH_PATTERNS` of diff.ts — a hard-coded
list, not a constructor parameter. -/
def NOISE_PATH_PATTERNS : List NoisePattern := [
  .endsWith "package-lock.json",
  .endsWith "yarn.lock",
  .endsWith "pnpm-lock.yaml",
  .endsWith "composer.lock",
  .endsWith "Gemfile.lock",
  .endsWith "poetry.lock",
  .endsWith ".min.js",
  .endsWith ".min.css",
  .containsStr "dist/",
  .containsStr "build/",
  .containsStr ".next/",
  .containsStr "coverage/"]

/-- The module-level constant `BINARY_HEADER = /^Binary files /` of diff.ts:
with no `m` flag, `^` anchors at the very start of the tested string. -/
def BINARY_HEADER : List Char := "Binary files ".data

/-- The `DiffService` class: the only state a caller can supply is the
constructor argument `maxTotalChars`. -/
structure DiffService where
  maxTotalChars : Nat
deriving DecidableEq, Repr

/-- Embeds `isNoise(path, raw)`: path matches a hard-coded noise pattern, or the raw
section text itself starts with the binary marker. -/
def DiffService.isNoise (_ : DiffService) (path raw : String) : Bool :=
  NOISE_PATH_PATTERNS.any (fun re => matchesPattern re path) ||
    listStartsWith BINARY_HEADER raw.data

/-- Line filter of `cleanPatch(raw)`: keep only hunk headers (`@@`), added (`+`), removed
(`-`) and context (space) lines; drop everything else. -/
def keepDiffLine (l : List Char) : Bool :=
  listStartsWith "@@".data l || listStartsWith "+".data l ||
    listStartsWith "-".data l || listStartsWith " ".data l

/-- Embeds `cleanPatch(raw)` of diff.ts. -/
def DiffService.cleanPatch (_ : DiffService) (raw : String) : String :=
  String.mk (joinLines ((splitLines raw.data).filter keepDiffLine))

/-- The fixed truncation marker line appended by `truncate` (including the
newline that precedes it in the source). -/
def TRUNCATION_MARKER : String := "\n// [truncated — diff too large]"

/-- Embeds `truncate(patch, remaining)` of diff.ts.  `null` is `none`. -/
def DiffService.truncate (_ : DiffService) (patch : String) (remaining : Int) : Option String :=
  if remaining ≤ 0 then none
  else if (patch.length : Int) ≤ remaining then some patch
  else
    let cut := lastIndexOfNL patch.data remaining
    let sliced :=
      if 0 < cut then String.mk (patch.data.take cut.toNat)
      else String.mk (patch.data.take remaining.toNat)
    some (sliced ++ TRUNCATION_MARKER)

/-- Match the hunk-header regex `/^@@ -\d+(?:,\d+)? \+(\d+)(?:,\d+)? @@/`
against one line, returning the captured destination start `c` on success.
The regex is only start-anchored: trailing text after the closing `@@` is
accepted. -/
def hunkCapture (l : List Char) : Option Nat :=
  match expectChars "@@ -".data l with
  | none => none
  | some r1 =>
    match parseDigits r1 with
    | none => none
    | some (_, r2) =>
      match expectChars " +".data (skipCommaDigits r2) with
      | none => none
      | some r4 =>
        match parseDigits r4 with
        | none => none
        | some (c, r5) =>
          match expectChars " @@".data (skipCommaDigits r5) with
          | none => none
          | some _ => some c

/-- The loop of `buildLineMap`: walk the lines carrying the 1-based line
counter (`diffLineIndex`, here `idx`, the number of lines already consumed)
and the destination-file counter `newFileLine`. -/
def buildLineMapGo : List (List Char) → Nat → Int → List (Nat × Int)
  | [], _, _ => []
  | line :: rest, idx, newFileLine =>
    match hunkCapture line with
    | some c => buildLineMapGo rest (idx + 1) ((c : Int) - 1)
    | none =>
      if listStartsWith "+".data line then
        (idx + 1, newFileLine + 1) :: buildLineMapGo rest (idx + 1) (newFileLine + 1)
      else if listStartsWith " ".data line then
        buildLineMapGo rest (idx + 1) (newFileLine + 1)
      else
        buildLineMapGo rest (idx + 1) newFileLine

/-- Embeds `buildLineMap(patch)` of diff.ts: map from 1-based line offset within
`patch` to destination-file line number, for `+` lines only. -/
def DiffService.buildLineMap (_ : DiffService) (patch : String) : List (Nat × Int) :=
  buildLineMapGo (splitLines patch.data) 0 0

/-- Split raw diff text at every line start followed by `diff --git ` (the JS
`diff.split(/^(?=diff --git )/m)`); the boolean tracks whether the current
position is a line start. -/
def splitDiffGit : List Char → Bool → List Char → List (List Char)
  | [], _, acc => [acc.reverse]
  | c :: cs, atStart, acc =>
    if atStart && listStartsWith "diff --git ".data (c :: cs) then
      acc.reverse :: splitDiffGit cs false [c]
    else
      splitDiffGit cs (c == '\n') (c :: acc)

/-- Scan for the last occurrence of ` b/` usable by the greedy regex
`^diff --git a\/.+ b\/(.+)$`: its index (within the text after `a/`) must be
at least `1` (the first `.+`) and at least one character must follow (the
capture). -/
def findLastBAux : List Char → Nat → Option Nat → Option Nat
  | [], _, best => best
  | c :: rest, i, best =>
    findLastBAux rest (i + 1)
      (if 1 ≤ i && listStartsWith " b/".data (c :: rest) && 4 ≤ (c :: rest).length
       then some i else best)

/-- Match `^diff --git a\/.+ b\/(.+)$` against one line and return the capture
(the destination path): the greedy first `.+` makes ` b/` match at its last
viable occurrence. -/
def headerCapture (l : List Char) : Option (List Char) :=
  if listStartsWith "diff --git a/".data l then
    let rest := l.drop 13
    match findLastBAux rest 0 none with
    | some i => some (rest.drop (i + 3))
    | none => none
  else none

/-- Find the first line of a section matching the `diff --git` header regex
(the `m`-flag search of `section.match`). -/
def firstHeaderCapture : List (List Char) → Option (List Char)
  | [] => none
  | l :: ls =>
    match headerCapture l with
    | some cap => some cap
    | none => firstHeaderCapture ls

/-- Embeds `splitByFile(diff)` of diff.ts: sections in order, paired with their
destination path, sections without a resolvable path dropped. -/
def DiffService.splitByFile (_ : DiffService) (diff : String) : List (String × String) :=
  let sections := (splitDiffGit diff.data true []).map String.mk |>.filter (fun s => s ≠ "")
  (sections.map (fun sec =>
      (match firstHeaderCapture (splitLines sec.data) with
       | some cap => String.mk (trimChars cap)
       | none => "", sec))).filter (fun f => f.1.length > 0)

/-- The `for (const { path, raw } of rawFiles)` loop of `parse`, carrying the
running `totalChars`.  An empty truncated string is falsy in JS, so it is
skipped exactly like a `null` one. -/
def DiffService.parseGo (svc : DiffService) : List (String × String) → Nat → List FileDiff
  | [], _ => []
  | (path, raw) :: rest, totalChars =>
    if svc.isNoise path raw then svc.parseGo rest totalChars
    else
      let patch := svc.cleanPatch raw
      match svc.truncate patch ((svc.maxTotalChars : Int) - (totalChars : Int)) with
      | none => svc.parseGo rest totalChars
      | some truncated =>
        if truncated.length == 0 then svc.parseGo rest totalChars
        else
          { path := path, patch := truncated, lineMap := svc.buildLineMap truncated } ::
            (if svc.maxTotalChars ≤ totalChars + truncated.length then []
             else svc.parseGo rest (totalChars + truncated.length))

/-- Embeds `parse(rawDiff)` of diff.ts. -/
def DiffService.parse (svc : DiffService) (rawDiff : String) : List FileDiff :=
  if (trimChars rawDiff.data).length == 0 then []
  else svc.parseGo (svc.splitByFile rawDiff) 0

/-! ## Reconciliation (src/handlers/pr-handler.ts, `buildGithubComments`) -/

/-- One AI-produced candidate (the `{ file, line }` part is what
reconciliation consumes; `message`/`severity` pass through). -/
structure ReviewComment where
  file : String
  line : Int
  message : String
  severity : String
deriving DecidableEq, Repr

/-- The shape handed to Octokit `createReview`. -/
structure GithubComment where
  path : String
  line : Int
  body : String
deriving DecidableEq, Repr

/-- Embeds the constant `SEVERITY_EMOJI` of src/types.ts (among the unnamed
sources): a record keyed by the three severities HIGH/MED/LOW with the
red/yellow/blue dots as values.  Indexing it with any other string is
`undefined` in JS, modelled as `none`; the `?? "⚪"` fallback is applied at
the use site in `buildGithubComments`. -/
def SEVERITY_EMOJI (sev : String) : Option String :=
  if sev = "HIGH" then some "🔴"
  else if sev = "MED" then some "🟡"
  else if sev = "LOW" then some "🔵"
  else none

/-- The comment body `` `${SEVERITY_EMOJI[c.severity] ?? "⚪"} **[${c.severity}]** ${c.message}` ``. -/
def mkBody (sev msg : String) : String :=
  ((SEVERITY_EMOJI sev).getD "⚪") ++ " **[" ++ sev ++ "]** " ++ msg

/-- Embeds `raw.file.replace(/^(\.\/|\/)+/, "")`: strip the maximal leading run of
`./` and `/` segments. -/
def stripLead : List Char → List Char
  | '.' :: '/' :: rest => stripLead rest
  | '/' :: rest => stripLead rest
  | cs => cs

/-- Path normalisation applied to the annotation's path. -/
def normalisePath (s : String) : String := String.mk (stripLead s.data)

/-- JS `Map.get` over an insertion-ordered association list with unique keys. -/
def mapGet (m : List (String × FileDiff)) (k : String) : Option FileDiff :=
  (m.find? (fun e => e.1 == k)).map (·.2)

/-- JS `Map.set`: overwrite in place when the key exists, else append. -/
def mapSet (m : List (String × FileDiff)) (k : String) (v : FileDiff) :
    List (String × FileDiff) :=
  if m.any (fun e => e.1 == k) then
    m.map (fun e => if e.1 == k then (k, v) else e)
  else m ++ [(k, v)]

/-- Embeds `new Map(fileDiffs.map((d) => [d.path, d]))` from the PR handler. -/
def mkFileMap (diffs : List FileDiff) : List (String × FileDiff) :=
  diffs.foldl (fun m d => mapSet m d.path d) []

/-- Embeds `fileMap.get(normalisedPath) ?? fileMap.get(raw.file)`. -/
def lookupFileDiff (fm : List (String × FileDiff)) (file : String) : Option FileDiff :=
  match mapGet fm (normalisePath file) with
  | some fd => some fd
  | none => mapGet fm file

/-- One step of the clamp `reduce` callback:
`Math.abs(curr - line) < Math.abs(prev - line) ? curr : prev`. -/
def clampStep (l prev curr : Int) : Int :=
  if |curr - l| < |prev - l| then curr else prev

/-- JS `Array.prototype.reduce` with no initial value over the valid lines
(never called on `[]` in the source; total here with the identity fallback). -/
def reduceClamp : List Int → Int → Int
  | [], l => l
  | v :: vs, l => vs.foldl (clampStep l) v

/-- The line-validation step of `buildGithubComments`: keep the requested line
when the line map is empty or already contains it, otherwise clamp to the
nearest value (earliest wins on ties). -/
def resolveLine (fd : FileDiff) (l : Int) : Int :=
  let validLines := fd.lineMap.map Prod.snd
  if validLines.length > 0 && !(validLines.contains l) then reduceClamp validLines l
  else l

/-- The dedupe key `` `${fileDiff.path}:${c.line}` ``. -/
def mkDedupeKey (path : String) (line : Int) : String :=
  path ++ ":" ++ toString line

/-- The loop of `buildGithubComments`, carrying the `seen` set of dedupe keys. -/
def buildGo (fm : List (String × FileDiff)) :
    List ReviewComment → List String → List GithubComment
  | [], _ => []
  | raw :: rest, seen =>
    match lookupFileDiff fm raw.file with
    | none => buildGo fm rest seen
    | some fd =>
      let line := resolveLine fd raw.line
      let key := mkDedupeKey fd.path line
      if seen.contains key then buildGo fm rest seen
      else
        { path := fd.path, line := line, body := mkBody raw.severity raw.message } ::
          buildGo fm rest (key :: seen)

/-- Embeds `buildGithubComments(comments, fileMap)` of pr-handler.ts. -/
def buildGithubComments (comments : List ReviewComment)
    (fm : List (String × FileDiff)) : List GithubComment :=
  buildGo fm comments []

/-- The `(fileDiff, resolvedLine)` dedupe key an annotation would produce, if
it resolves at all (used to state the deduplication claims). -/
def keyOpt (fm : List (String × FileDiff)) (c : ReviewComment) : Option String :=
  match lookupFileDiff fm c.file with
  | some fd => some (mkDedupeKey fd.path (resolveLine fd c.line))
  | none => none

/-! ## Spec-side definitions (written from the spec's words, for comparison) -/

/-- Written from the spec's words: the noise classifier as the spec describes
it, parameterised over a caller-supplied pattern set (the code's `isNoise`
instead closes over the hard-coded `NOISE_PATH_PATTERNS`). -/
def isNoiseWith (pats : List NoisePattern) (path raw : String) : Bool :=
  pats.any (fun re => matchesPattern re path) || listStartsWith BINARY_HEADER raw.data

/-- Holds when `pre` is a prefix of `input` that ends exactly at a line boundary: at the
end of the input or immediately before a newline. -/
def endsAtLineBoundary (input pre : String) : Bool :=
  listStartsWith pre.data input.data &&
    (pre.length == input.length || input.data.get? pre.length == some '\n')

/-- Written from the spec's words: the truncation claim for one input — when
`truncate` returns a text different from its input, that text is a prefix of
the input ending exactly at a line boundary followed by the fixed truncation
marker line. -/
def truncateBoundaryClaim (svc : DiffService) (patch : String) (remaining : Int) : Bool :=
  match svc.truncate patch remaining with
  | none => true
  | some out =>
    out == patch ||
      (listEndsWith TRUNCATION_MARKER.data out.data &&
        endsAtLineBoundary patch
          (String.mk (out.data.take (out.data.length - TRUNCATION_MARKER.data.length))))

/-- Written from the spec's words: the first value in the list whose absolute
distance to `l` is minimal over the whole list (minimum distance, earliest
insertion wins ties). -/
def firstMinDist (vs : List Int) (l : Int) : Option Int :=
  vs.find? (fun v => vs.all (fun w => |v - l| ≤ |w - l|))

/-! ## Helper lemmas -/

/-- A string of length zero is the empty string. -/
theorem strLen_zero (s : String) (h : s.length = 0) : s = "" := by
  cases s with
  | _ d => simp [String.length] at h; simp [h]

/-- String concatenation concatenates the underlying character lists. -/
theorem strData_append (s t : String) : (s ++ t).data = s.data ++ t.data := by
  cases s; cases t; rfl

/-- Every list starts with itself followed by anything. -/
theorem listStartsWith_append_self (p t : List Char) : listStartsWith p (p ++ t) = true := by
  induction p with
  | nil => rfl
  | cons c cs ih => simp [listStartsWith, ih]

/-- Every list ends with the second summand of an append. -/
theorem listEndsWith_append (a b : List Char) : listEndsWith b (a ++ b) = true := by
  simp only [listEndsWith, List.reverse_append]
  exact listStartsWith_append_self b.reverse a.reverse

/-- A `take`-prefix satisfies the prefix test. -/
theorem listStartsWith_take (cs : List Char) (n : Nat) :
    listStartsWith (cs.take n) cs = true := by
  induction cs generalizing n with
  | nil => cases n <;> rfl
  | cons c t ih =>
    cases n with
    | zero => rfl
    | succ m => simp [listStartsWith, ih]

/-- The result of `find?` only depends on the predicate's values. -/
theorem find?_ext {α : Type} (p q : α → Bool) (l : List α) (h : ∀ a, p a = q a) :
    List.find? p l = List.find? q l := by
  induction l with
  | nil => rfl
  | cons a t ih => simp only [List.find?_cons, h a, ih]

/-- The result of `all` only depends on the predicate's values. -/
theorem all_ext {α : Type} (p q : α → Bool) (l : List α) (h : ∀ a, p a = q a) :
    l.all p = l.all q := by
  induction l with
  | nil => rfl
  | cons a t ih => simp only [List.all_cons, h a, ih]

/-- The scan `lastNLDown` returns `-1` or a valid newline position at most `k`. -/
theorem lastNLDown_spec (cs : List Char) (k : Nat) :
    lastNLDown cs k = -1 ∨
      (0 ≤ lastNLDown cs k ∧ lastNLDown cs k ≤ (k : Int) ∧
        cs.get? (lastNLDown cs k).toNat = some '\n') := by
  induction k with
  | zero =>
    by_cases h : cs.get? 0 = some '\n'
    · right; simp only [lastNLDown, h, beq_self_eq_true, if_pos]
      exact ⟨le_refl 0, le_refl 0, h⟩
    · left; rw [lastNLDown, if_neg (by simpa using h)]
  | succ m ih =>
    by_cases h : cs.get? (m + 1) = some '\n'
    · right
      rw [lastNLDown, if_pos (by simpa using h)]
      refine ⟨by omega, le_refl _, ?_⟩
      have : ((m : Int) + 1).toNat = m + 1 := by omega
      rw [this]; exact h
    · rw [lastNLDown, if_neg (by simpa using h)]
      rcases ih with h1 | ⟨h1, h2, h3⟩
      · left; exact h1
      · right; exact ⟨h1, by omega, h3⟩

/-- The search `lastIndexOfNL` returns `-1` or a valid newline position at most `fromIdx`. -/
theorem lastIndexOfNL_spec (cs : List Char) (fromIdx : Int) :
    lastIndexOfNL cs fromIdx = -1 ∨
      (0 ≤ lastIndexOfNL cs fromIdx ∧
        cs.get? (lastIndexOfNL cs fromIdx).toNat = some '\n') := by
  rcases lastNLDown_spec cs (min fromIdx.toNat (cs.length - 1)) with h | ⟨h1, _, h3⟩
  · left; exact h
  · right; exact ⟨h1, h3⟩

/-! ## C2 — truncation and line boundaries -/

/-- C2 counterexample: on the newline-free patch `"abcdef"` with remaining
budget `3`, `truncate` returns a changed text (`"abc"` plus the marker) whose
pre-marker part `"abc"` does not end at a line boundary of the input — the
single input line is split mid-line, so the claim is false as stated. -/
theorem c2_counterexample :
    truncateBoundaryClaim (DiffService.mk 10000) "abcdef" 3 = false ∧
      (DiffService.mk 10000).truncate "abcdef" 3 = some ("abc" ++ TRUNCATION_MARKER) ∧
      endsAtLineBoundary "abcdef" "abc" = false := by
  refine ⟨by decide, by decide, by decide⟩

/-- C2 (amended): whenever the input has a newline at a positive index at or
before the remaining budget (the `cut > 0` case of the source), any text
`truncate` returns that differs from its input ends exactly at a line
boundary of the input and is followed by the fixed truncation marker line;
without such a newline the code falls back to a hard character cut that can
split a line. -/
theorem c2_theorem (svc : DiffService) (patch : String) (r : Int)
    (h : 0 < lastIndexOfNL patch.data r) :
    truncateBoundaryClaim svc patch r = true := by
  by_cases h0 : r ≤ 0
  · simp [truncateBoundaryClaim, DiffService.truncate, h0]
  · by_cases h1 : (patch.length : Int) ≤ r
    · simp [truncateBoundaryClaim, DiffService.truncate, h0, h1]
    · have htr : svc.truncate patch r =
          some (String.mk (patch.data.take (lastIndexOfNL patch.data r).toNat) ++
            TRUNCATION_MARKER) := by
        simp [DiffService.truncate, h0, h1, h]
      have hget : patch.data.get? (lastIndexOfNL patch.data r).toNat = some '\n' := by
        rcases lastIndexOfNL_spec patch.data r with hc | ⟨_, hg⟩
        · rw [hc] at h; exact absurd h (by norm_num)
        · exact hg
      have hlt : (lastIndexOfNL patch.data r).toNat < patch.data.length := by
        rcases List.get?_eq_some.mp hget with ⟨hb, _⟩; exact hb
      have hlen : (patch.data.take (lastIndexOfNL patch.data r).toNat).length =
          (lastIndexOfNL patch.data r).toNat := by
        rw [List.length_take]; omega
      unfold truncateBoundaryClaim
      rw [htr]
      simp only [Bool.or_eq_true, Bool.and_eq_true]
      right
      constructor
      · show listEndsWith TRUNCATION_MARKER.data
          ((String.mk (patch.data.take (lastIndexOfNL patch.data r).toNat) ++
            TRUNCATION_MARKER).data) = true
        rw [strData_append]
        exact listEndsWith_append _ _
      · rw [strData_append]
        show endsAtLineBoundary patch (String.mk
          (((patch.data.take (lastIndexOfNL patch.data r).toNat) ++ TRUNCATION_MARKER.data).take
            (((patch.data.take (lastIndexOfNL patch.data r).toNat) ++
              TRUNCATION_MARKER.data).length - TRUNCATION_MARKER.data.length))) = true
        rw [List.length_append, Nat.add_sub_cancel, List.take_left]
        unfold endsAtLineBoundary
        simp only [Bool.and_eq_true, Bool.or_eq_true]
        constructor
        · exact listStartsWith_take patch.data _
        · right
          show (patch.data.get? (String.mk (patch.data.take
            (lastIndexOfNL patch.data r).toNat)).length == some '\n') = true
          have : (String.mk (patch.data.take (lastIndexOfNL patch.data r).toNat)).length =
              (lastIndexOfNL patch.data r).toNat := hlen
          rw [this, hget]
          exact beq_self_eq_true _

/-- C2 witness: the hypothesis and the conclusion of `c2_theorem`
at the concrete input `"ab\ncd"` with remaining budget `3`. -/
theorem c2_witness :
    truncateBoundaryClaim (DiffService.mk 0) "ab\ncd" 3 = true :=
  c2_theorem (DiffService.mk 0) "ab\ncd" 3 (by decide)

/-! ## C7 — the single-hunk added-only example -/

/-- C7: for the patch `"@@ -1,1 +1,2 @@\n original\n+added"`, the line map
has exactly one entry, mapping the added line's 1-based offset 3 within the
patch to destination-file line 2. -/
theorem c7_theorem :
    (DiffService.mk 30000).buildLineMap "@@ -1,1 +1,2 @@\n original\n+added" = [(3, 2)] := by
  decide

/-! ## C9 — the noise-pattern set is not caller-supplied -/

/-- C9 counterexample: the noise decision for `package-lock.json` is `true`
for every `DiffService` a caller can construct (the constructor's only
parameter is the budget), while the spec's parametric classifier with a
caller-supplied empty pattern set classifies the same section as reviewable —
the decision comes from the hard-coded list, not from caller configuration. -/
theorem c9_counterexample :
    (DiffService.mk 0).isNoise "package-lock.json" "@@ -1,1 +1,1 @@\n-x\n+y" = true ∧
      (DiffService.mk 999999).isNoise "package-lock.json" "@@ -1,1 +1,1 @@\n-x\n+y" = true ∧
      isNoiseWith [] "package-lock.json" "@@ -1,1 +1,1 @@\n-x\n+y" = false := by
  refine ⟨by decide, by decide, by decide⟩

/-- C9 (amended): the noise-pattern set is the hard-coded module constant
`NOISE_PATH_PATTERNS`, not caller configuration: the classification decision
is identical for any two `DiffService` instances (so it is independent of the
only caller-supplied parameter, the budget), and always equals the spec's
parametric classifier applied to the fixed built-in list. -/
theorem c9_theorem :
    (∀ (s₁ s₂ : DiffService) (path raw : String),
      s₁.isNoise path raw = s₂.isNoise path raw) ∧
    (∀ (svc : DiffService) (path raw : String),
      svc.isNoise path raw = isNoiseWith NOISE_PATH_PATTERNS path raw) :=
  ⟨fun _ _ _ _ => rfl, fun _ _ _ => rfl⟩

/-! ## C6 — sections that fit are passed through unchanged -/

/-- C6: a non-noise section whose sanitized text is non-empty and fits in the
remaining budget is returned unchanged by the allocator, and the running
consumed total of the loop increases by exactly the text's length. -/
theorem c6_theorem (svc : DiffService) (p raw : String)
    (rest : List (String × String)) (total : Nat)
    (h1 : svc.isNoise p raw = false)
    (h2 : svc.cleanPatch raw ≠ "")
    (h3 : total < svc.maxTotalChars)
    (h4 : (svc.cleanPatch raw).length ≤ svc.maxTotalChars - total) :
    svc.truncate (svc.cleanPatch raw) ((svc.maxTotalChars : Int) - (total : Int)) =
        some (svc.cleanPatch raw) ∧
      svc.parseGo ((p, raw) :: rest) total =
        { path := p, patch := svc.cleanPatch raw,
          lineMap := svc.buildLineMap (svc.cleanPatch raw) } ::
          (if svc.maxTotalChars ≤ total + (svc.cleanPatch raw).length then []
           else svc.parseGo rest (total + (svc.cleanPatch raw).length)) := by
  have hrem : ¬ ((svc.maxTotalChars : Int) - (total : Int) ≤ 0) := by omega
  have hfit : ((svc.cleanPatch raw).length : Int) ≤
      (svc.maxTotalChars : Int) - (total : Int) := by omega
  have htr : svc.truncate (svc.cleanPatch raw)
      ((svc.maxTotalChars : Int) - (total : Int)) = some (svc.cleanPatch raw) := by
    simp [DiffService.truncate, hrem, hfit]
  have hne : (svc.cleanPatch raw).length ≠ 0 := fun hz => h2 (strLen_zero _ hz)
  refine ⟨htr, ?_⟩
  simp only [DiffService.parseGo, h1, Bool.false_eq_true, if_false, htr, hne,
    beq_iff_eq, if_neg hne]

/-- C6 witness: `c6_theorem` at a concrete one-section diff under budget 100. -/
theorem c6_witness :
    (DiffService.mk 100).truncate "+x" 100 = some "+x" ∧
      (DiffService.mk 100).parseGo [("a.ts", "diff --git a/a.ts b/a.ts\n+x\n")] 0 =
        [{ path := "a.ts", patch := "+x", lineMap := [(1, 1)] }] := by
  have h := c6_theorem (DiffService.mk 100) "a.ts" "diff --git a/a.ts b/a.ts\n+x\n" [] 0
    (by decide) (by decide) (by decide) (by decide)
  refine ⟨by decide, ?_⟩
  rw [h.2]; decide

/-! ## C3 — binary sections and `isNoise` -/

/-- C3 counterexample: a file section whose body (the text after the
`diff --git` and `index` header lines) begins with the binary marker line is
not flagged by `isNoise`: the regex `^Binary files ` is anchored at the start
of the whole section text, which starts with `diff --git `. -/
theorem c3_counterexample :
    "diff --git a/image.png b/image.png\nindex aaa..bbb 100644\nBinary files a/image.png and b/image.png differ\n" =
        "diff --git a/image.png b/image.png\nindex aaa..bbb 100644\n" ++
          "Binary files a/image.png and b/image.png differ\n" ∧
      (DiffService.mk 10000).isNoise "image.png"
        "diff --git a/image.png b/image.png\nindex aaa..bbb 100644\nBinary files a/image.png and b/image.png differ\n" =
        false := by
  refine ⟨by decide, by decide⟩

/-- A section whose sanitized patch is empty is skipped by the parse loop:
it produces no record and leaves the consumed total unchanged (the empty
truncation result is falsy).  This is how binary sections are dropped. -/
theorem parseGo_skip_empty (svc : DiffService) (p raw : String)
    (rest : List (String × String)) (total : Nat)
    (hcp : svc.cleanPatch raw = "") :
    svc.parseGo ((p, raw) :: rest) total = svc.parseGo rest total := by
  by_cases hn : svc.isNoise p raw
  · simp [DiffService.parseGo, hn]
  · by_cases hr : (svc.maxTotalChars : Int) - (total : Int) ≤ 0
    · simp [DiffService.parseGo, hn, hcp, DiffService.truncate, hr]
    · have hle : total ≤ svc.maxTotalChars := by omega
      simp [DiffService.parseGo, hn, hcp, DiffService.truncate, hr, hle]

/-- C3 (amended): `isNoise` does not fire on binary sections (their text
starts with the `diff --git` header, not with `Binary files `, see the
counterexample); such a section is nonetheless dropped — sanitization leaves
an empty patch, and any section with an empty sanitized patch is skipped
without consuming budget and without appearing in the output, so a binary
diff parses to the empty list. -/
theorem c3_theorem :
    (∀ (svc : DiffService) (p raw : String) (rest : List (String × String)) (total : Nat),
       svc.cleanPatch raw = "" →
         svc.parseGo ((p, raw) :: rest) total = svc.parseGo rest total) ∧
      (∀ maxChars : Nat, (DiffService.mk maxChars).parse
        "diff --git a/image.png b/image.png\nindex aaa..bbb 100644\nBinary files a/image.png and b/image.png differ\n" = []) := by
  refine ⟨parseGo_skip_empty, ?_⟩
  intro maxChars
  rw [DiffService.parse.eq_def, if_neg (by decide)]
  have hs : (DiffService.mk maxChars).splitByFile
      "diff --git a/image.png b/image.png\nindex aaa..bbb 100644\nBinary files a/image.png and b/image.png differ\n" =
      [("image.png",
        "diff --git a/image.png b/image.png\nindex aaa..bbb 100644\nBinary files a/image.png and b/image.png differ\n")] := rfl
  have hskip := parseGo_skip_empty (DiffService.mk maxChars) "image.png"
    "diff --git a/image.png b/image.png\nindex aaa..bbb 100644\nBinary files a/image.png and b/image.png differ\n"
    [] 0 (by rfl)
  rw [hs, hskip]
  rfl

/-- C3 witness: the skip equation of `c3_theorem` at the concrete binary
section. -/
theorem c3_witness :
    (DiffService.mk 10000).parseGo
        [("image.png",
          "diff --git a/image.png b/image.png\nindex aaa..bbb 100644\nBinary files a/image.png and b/image.png differ\n")] 0 =
      (DiffService.mk 10000).parseGo [] 0 :=
  c3_theorem.1 (DiffService.mk 10000) "image.png"
    "diff --git a/image.png b/image.png\nindex aaa..bbb 100644\nBinary files a/image.png and b/image.png differ\n"
    [] 0 (by decide)

/-! ## C5 — duplicate destination paths are not deduplicated -/

/-- C5 counterexample: a raw diff with two sections both naming `a.ts` parses
to two records with the same path — paths are not unique in one run's output. -/
theorem c5_counterexample :
    (((DiffService.mk 10000).parse
        "diff --git a/a.ts b/a.ts\n--- a/a.ts\n+++ b/a.ts\n@@ -1,1 +1,2 @@\n x\n+y\ndiff --git a/a.ts b/a.ts\n--- a/a.ts\n+++ b/a.ts\n@@ -5,1 +5,2 @@\n p\n+q\n").map
      FileDiff.path) = ["a.ts", "a.ts"] ∧
      ¬ (((DiffService.mk 10000).parse
        "diff --git a/a.ts b/a.ts\n--- a/a.ts\n+++ b/a.ts\n@@ -1,1 +1,2 @@\n x\n+y\ndiff --git a/a.ts b/a.ts\n--- a/a.ts\n+++ b/a.ts\n@@ -5,1 +5,2 @@\n p\n+q\n").map
      FileDiff.path).Nodup := by
  refine ⟨by decide, by decide⟩

/-- The paths of the records produced by the parse loop form a sublist of the
destination paths of the sections fed to it (in order). -/
theorem parseGo_paths_sublist (svc : DiffService) :
    ∀ (secs : List (String × String)) (total : Nat),
      ((svc.parseGo secs total).map FileDiff.path).Sublist (secs.map Prod.fst) := by
  intro secs
  induction secs with
  | nil => intro total; simp [DiffService.parseGo]
  | cons s rest ih =>
    intro total
    obtain ⟨p, raw⟩ := s
    by_cases hn : svc.isNoise p raw
    · simp only [DiffService.parseGo, hn, if_true, List.map_cons]
      exact (ih total).cons p
    · simp only [DiffService.parseGo, hn, Bool.false_eq_true, if_false]
      rcases htr : svc.truncate (svc.cleanPatch raw)
          ((svc.maxTotalChars : Int) - (total : Int)) with _ | t
      · simp only [htr]
        exact (ih total).cons p
      · simp only [htr]
        by_cases hz : t.length == 0
        · simp only [hz, if_true]
          exact (ih total).cons p
        · simp only [hz, Bool.false_eq_true, if_false, List.map_cons]
          by_cases hb : svc.maxTotalChars ≤ total + t.length
          · rw [if_pos hb]
            exact (List.nil_sublist _).cons₂ p
          · rw [if_neg hb]
            exact (ih _).cons₂ p

/-- C5 (amended): the parse output's paths are, in order, a sublist of the
input sections' destination paths; consequently they are pairwise distinct
whenever the input's sections name pairwise-distinct destination paths — but
a diff repeating a destination path yields duplicate output paths (see the
counterexample). -/
theorem c5_theorem :
    (∀ (svc : DiffService) (diff : String),
       ((svc.parse diff).map FileDiff.path).Sublist ((svc.splitByFile diff).map Prod.fst)) ∧
      (∀ (svc : DiffService) (diff : String),
        ((svc.splitByFile diff).map Prod.fst).Nodup →
          ((svc.parse diff).map FileDiff.path).Nodup) := by
  have h1 : ∀ (svc : DiffService) (diff : String),
      ((svc.parse diff).map FileDiff.path).Sublist ((svc.splitByFile diff).map Prod.fst) := by
    intro svc diff
    rw [DiffService.parse.eq_def]
    by_cases he : (trimChars diff.data).length == 0
    · simp only [he, if_true, List.map_nil]
      exact List.nil_sublist _
    · simp only [he, Bool.false_eq_true, if_false]
      exact parseGo_paths_sublist svc _ 0
  exact ⟨h1, fun svc diff hnd => List.Nodup.sublist (h1 svc diff) hnd⟩

/-- C5 witness: on the two-file diff with distinct destination paths, the
section paths are distinct, so the output paths are distinct. -/
theorem c5_witness :
    (((DiffService.mk 10000).parse
        "diff --git a/src/a.ts b/src/a.ts\nindex aaa..bbb 100644\n--- a/src/a.ts\n+++ b/src/a.ts\n@@ -1,2 +1,3 @@\n const x = 1;\n+const y = 2;\ndiff --git a/src/b.ts b/src/b.ts\nindex ccc..ddd 100644\n--- a/src/b.ts\n+++ b/src/b.ts\n@@ -5,3 +5,4 @@\n function foo() {}\n+function bar() {}\n").map
      FileDiff.path).Nodup :=
  c5_theorem.2 (DiffService.mk 10000)
    "diff --git a/src/a.ts b/src/a.ts\nindex aaa..bbb 100644\n--- a/src/a.ts\n+++ b/src/a.ts\n@@ -1,2 +1,3 @@\n const x = 1;\n+const y = 2;\ndiff --git a/src/b.ts b/src/b.ts\nindex ccc..ddd 100644\n--- a/src/b.ts\n+++ b/src/b.ts\n@@ -5,3 +5,4 @@\n function foo() {}\n+function bar() {}\n"
    (by decide)

/-! ## C4 — clamping to the nearest valid line -/

/-- Folding one `reduce` step into the head preserves the first-minimizer:
the two-element comparison keeps the earlier element on ties, which is
exactly what `find?` over the all-quantified minimality test selects. -/
theorem firstMin_cons_cons (l init curr : Int) (vs : List Int) :
    firstMinDist (init :: curr :: vs) l = firstMinDist (clampStep l init curr :: vs) l := by
  unfold firstMinDist clampStep
  by_cases h : |curr - l| < |init - l|
  · rw [if_pos h]
    have hni : ¬ (|init - l| ≤ |curr - l|) := not_le.mpr h
    conv_lhs => rw [List.find?_cons_of_neg _ (by simp [List.all_cons, hni])]
    apply find?_ext
    intro v
    by_cases hv : |v - l| ≤ |curr - l|
    · have hvi : |v - l| ≤ |init - l| := le_trans hv (le_of_lt h)
      simp [List.all_cons, hv, hvi]
    · simp [List.all_cons, hv]
  · rw [if_neg h]
    have hle : |init - l| ≤ |curr - l| := not_lt.mp h
    by_cases ha : (vs.all fun w => decide (|init - l| ≤ |w - l|)) = true
    · have hPinit : ((init :: curr :: vs).all fun w => decide (|init - l| ≤ |w - l|)) = true := by
        simp only [List.all_cons, Bool.and_eq_true, decide_eq_true_eq]
        exact ⟨le_refl _, hle, ha⟩
      have hQinit : ((init :: vs).all fun w => decide (|init - l| ≤ |w - l|)) = true := by
        simp only [List.all_cons, Bool.and_eq_true, decide_eq_true_eq]
        exact ⟨le_refl _, ha⟩
      have e1 : List.find?
          (fun v => (init :: curr :: vs).all fun w => decide (|v - l| ≤ |w - l|))
          (init :: curr :: vs) = some init := List.find?_cons_of_pos _ hPinit
      have e2 : List.find?
          (fun v => (init :: vs).all fun w => decide (|v - l| ≤ |w - l|))
          (init :: vs) = some init := List.find?_cons_of_pos _ hQinit
      rw [e1, e2]
    · have hPinit : ¬ ((init :: curr :: vs).all fun w => decide (|init - l| ≤ |w - l|)) = true := by
        intro hc
        simp only [List.all_cons, Bool.and_eq_true, decide_eq_true_eq] at hc
        exact ha hc.2.2
      have hQinit : ¬ ((init :: vs).all fun w => decide (|init - l| ≤ |w - l|)) = true := by
        intro hc
        simp only [List.all_cons, Bool.and_eq_true, decide_eq_true_eq] at hc
        exact ha hc.2
      have hPcurr : ¬ ((init :: curr :: vs).all fun w => decide (|curr - l| ≤ |w - l|)) = true := by
        intro hc
        simp only [List.all_cons, Bool.and_eq_true, decide_eq_true_eq] at hc
        obtain ⟨hci, _, hcvs⟩ := hc
        have heq : |curr - l| = |init - l| := le_antisymm hci hle
        apply ha
        have hee := all_ext (fun w => decide (|init - l| ≤ |w - l|))
          (fun w => decide (|curr - l| ≤ |w - l|)) vs (fun w => by rw [heq])
        rw [hee]
        exact hcvs
      have e1 : List.find?
          (fun v => (init :: curr :: vs).all fun w => decide (|v - l| ≤ |w - l|))
          (init :: curr :: vs) = List.find?
          (fun v => (init :: curr :: vs).all fun w => decide (|v - l| ≤ |w - l|))
          (curr :: vs) := List.find?_cons_of_neg _ hPinit
      have e2 : List.find?
          (fun v => (init :: vs).all fun w => decide (|v - l| ≤ |w - l|))
          (init :: vs) = List.find?
          (fun v => (init :: vs).all fun w => decide (|v - l| ≤ |w - l|))
          vs := List.find?_cons_of_neg _ hQinit
      have e3 : List.find?
          (fun v => (init :: curr :: vs).all fun w => decide (|v - l| ≤ |w - l|))
          (curr :: vs) = List.find?
          (fun v => (init :: curr :: vs).all fun w => decide (|v - l| ≤ |w - l|))
          vs := List.find?_cons_of_neg _ hPcurr
      rw [e1, e2, e3]
      apply find?_ext
      intro v
      by_cases hv : |v - l| ≤ |init - l|
      · have hvc : |v - l| ≤ |curr - l| := le_trans hv hle
        simp [List.all_cons, hv, hvc]
      · simp [List.all_cons, hv]

/-- The source's `reduce` computes the first value of minimal absolute
distance, in map insertion order. -/
theorem reduceClamp_eq_firstMin (l : Int) :
    ∀ (vs : List Int) (init : Int),
      firstMinDist (init :: vs) l = some (vs.foldl (clampStep l) init) := by
  intro vs
  induction vs with
  | nil => intro init; simp [firstMinDist]
  | cons curr tl ih =>
    intro init
    rw [firstMin_cons_cons]
    exact ih (clampStep l init curr)

/-- C4: for an annotation resolving to a record with a non-empty line map
and a requested line outside the map's values, the resolved line is the map
value of minimum absolute distance to the request (earliest-inserted value
wins ties), and a one-element batch emits exactly that resolved line under
the record's canonical path. -/
theorem c4_theorem :
    (∀ (fd : FileDiff) (l : Int),
       fd.lineMap.map Prod.snd ≠ [] →
       l ∉ fd.lineMap.map Prod.snd →
       firstMinDist (fd.lineMap.map Prod.snd) l = some (resolveLine fd l)) ∧
      (∀ (fm : List (String × FileDiff)) (c : ReviewComment) (fd : FileDiff),
        lookupFileDiff fm c.file = some fd →
          buildGithubComments [c] fm =
            [{ path := fd.path, line := resolveLine fd c.line,
               body := mkBody c.severity c.message }]) := by
  constructor
  · intro fd l hne hnm
    unfold resolveLine
    have hct : (fd.lineMap.map Prod.snd).contains l = false := by
      simpa using hnm
    have hlen : 0 < (fd.lineMap.map Prod.snd).length := List.length_pos.mpr hne
    rw [if_pos (by rw [hct]; simpa using hlen)]
    cases hm : fd.lineMap.map Prod.snd with
    | nil => exact absurd hm hne
    | cons v tl => exact reduceClamp_eq_firstMin l tl v
  · intro fm c fd hl
    simp only [buildGithubComments, buildGo, hl]
    rfl

/-- C4 witness: `c4_theorem` at a concrete tie (distances 2 and 2 from line
5 to values 3 and 7: the earlier value 3 wins) and at a concrete one-comment
batch. -/
theorem c4_witness :
    firstMinDist [3, 7] 5 =
        some (resolveLine { path := "f", patch := "p", lineMap := [(1, 3), (2, 7)] } 5) ∧
      buildGithubComments [{ file := "a.ts", line := 9, message := "m", severity := "LOW" }]
          (mkFileMap [{ path := "a.ts", patch := "+x", lineMap := [(1, 1)] }]) =
        [{ path := "a.ts",
           line := resolveLine { path := "a.ts", patch := "+x", lineMap := [(1, 1)] } 9,
           body := mkBody "LOW" "m" }] :=
  ⟨c4_theorem.1 { path := "f", patch := "p", lineMap := [(1, 3), (2, 7)] } 5
      (by decide) (by decide),
    c4_theorem.2 (mkFileMap [{ path := "a.ts", patch := "+x", lineMap := [(1, 1)] }])
      { file := "a.ts", line := 9, message := "m", severity := "LOW" }
      { path := "a.ts", patch := "+x", lineMap := [(1, 1)] } (by decide)⟩

/-! ## C8 — deduplication by (canonical path, resolved line) -/

/-- Every comment emitted by the reconciliation loop has a dedupe key that
was not in the `seen` set the loop started from. -/
theorem buildGo_key_unseen (fm : List (String × FileDiff)) :
    ∀ (comments : List ReviewComment) (seen : List String) (c : GithubComment),
      c ∈ buildGo fm comments seen → mkDedupeKey c.path c.line ∉ seen := by
  intro comments
  induction comments with
  | nil => intro seen c hc; simp [buildGo] at hc
  | cons raw rest ih =>
    intro seen c hc
    simp only [buildGo] at hc
    split at hc
    · exact ih seen c hc
    · next fd heq =>
      split at hc
      · exact ih seen c hc
      · next hk =>
        rcases List.mem_cons.mp hc with rfl | htail
        · intro hmem
          exact hk (by simpa using hmem)
        · intro hmem
          exact ih _ c htail (List.mem_cons_of_mem _ hmem)

/-- The emitted comments have pairwise-distinct dedupe keys. -/
theorem buildGo_pairwise (fm : List (String × FileDiff)) :
    ∀ (comments : List ReviewComment) (seen : List String),
      (buildGo fm comments seen).Pairwise
        (fun a b => mkDedupeKey a.path a.line ≠ mkDedupeKey b.path b.line) := by
  intro comments
  induction comments with
  | nil => intro seen; simp [buildGo]
  | cons raw rest ih =>
    intro seen
    simp only [buildGo]
    split
    · exact ih seen
    · next fd heq =>
      split
      · exact ih seen
      · next hk =>
        apply List.Pairwise.cons
        · intro b hb
          have hb' := buildGo_key_unseen fm rest
            (mkDedupeKey fd.path (resolveLine fd raw.line) :: seen) b hb
          intro heq2
          apply hb'
          rw [← heq2]
          exact List.mem_cons_self _ _
        · exact ih _

/-- A comment whose dedupe key (if it resolves at all) is already in `seen`
can be deleted from the batch without changing the output. -/
theorem buildGo_drop_seen (fm : List (String × FileDiff)) :
    ∀ (ys zs : List ReviewComment) (b : ReviewComment) (seen : List String),
      (∀ k, keyOpt fm b = some k → k ∈ seen) →
      buildGo fm (ys ++ b :: zs) seen = buildGo fm (ys ++ zs) seen := by
  intro ys
  induction ys with
  | nil =>
    intro zs b seen hb
    simp only [List.nil_append]
    simp only [buildGo]
    cases hl : lookupFileDiff fm b.file with
    | none => simp only [hl]
    | some fd =>
      have hk : seen.contains (mkDedupeKey fd.path (resolveLine fd b.line)) = true := by
        have hm := hb (mkDedupeKey fd.path (resolveLine fd b.line)) (by simp [keyOpt, hl])
        simpa using hm
      simp only [hl, hk, if_true]
  | cons y ys ih =>
    intro zs b seen hb
    simp only [List.cons_append]
    simp only [buildGo]
    cases hl : lookupFileDiff fm y.file with
    | none => simp only [hl]; exact ih zs b seen hb
    | some fd =>
      simp only [hl]
      by_cases hk : seen.contains (mkDedupeKey fd.path (resolveLine fd y.line)) = true
      · rw [if_pos hk, if_pos hk]
        exact ih zs b seen hb
      · rw [if_neg hk, if_neg hk]
        congr 1
        apply ih
        intro k hkk
        exact List.mem_cons_of_mem _ (hb k hkk)

/-- Two batch entries with the same resolution key: deleting the later one
does not change the output. -/
theorem buildGo_dup (fm : List (String × FileDiff)) :
    ∀ (xs ys zs : List ReviewComment) (a b : ReviewComment) (seen : List String),
      keyOpt fm a = keyOpt fm b →
      buildGo fm (xs ++ a :: (ys ++ b :: zs)) seen =
        buildGo fm (xs ++ a :: (ys ++ zs)) seen := by
  intro xs
  induction xs with
  | nil =>
    intro ys zs a b seen hab
    simp only [List.nil_append]
    simp only [buildGo]
    cases hl : lookupFileDiff fm a.file with
    | none =>
      simp only [hl]
      apply buildGo_drop_seen
      intro k hkk
      rw [← hab] at hkk
      simp [keyOpt, hl] at hkk
    | some fd =>
      simp only [hl]
      have hka : keyOpt fm a = some (mkDedupeKey fd.path (resolveLine fd a.line)) := by
        simp [keyOpt, hl]
      by_cases hk : seen.contains (mkDedupeKey fd.path (resolveLine fd a.line)) = true
      · rw [if_pos hk, if_pos hk]
        apply buildGo_drop_seen
        intro k hkk
        rw [← hab, hka] at hkk
        cases Option.some.inj hkk
        simpa using hk
      · rw [if_neg hk, if_neg hk]
        congr 1
        apply buildGo_drop_seen
        intro k hkk
        rw [← hab, hka] at hkk
        cases Option.some.inj hkk
        exact List.mem_cons_self _ _
  | cons x xs ih =>
    intro ys zs a b seen hab
    simp only [List.cons_append]
    simp only [buildGo]
    cases hl : lookupFileDiff fm x.file with
    | none => simp only [hl]; exact ih ys zs a b seen hab
    | some fd =>
      simp only [hl]
      by_cases hk : seen.contains (mkDedupeKey fd.path (resolveLine fd x.line)) = true
      · rw [if_pos hk, if_pos hk]
        exact ih ys zs a b seen hab
      · rw [if_neg hk, if_neg hk]
        congr 1
        exact ih ys zs a b _ hab

/-- C8: within one batch, the emitted comments have pairwise-distinct
`(path, line)` pairs (a later annotation resolving to an already-emitted pair
is dropped), and deleting a later batch entry with the same resolution key as
an earlier one leaves the output unchanged — in particular, resolving the
same annotation twice yields its result once. -/
theorem c8_theorem :
    (∀ (comments : List ReviewComment) (fm : List (String × FileDiff)),
       (buildGithubComments comments fm).Pairwise
         (fun a b => (a.path, a.line) ≠ (b.path, b.line))) ∧
      (∀ (fm : List (String × FileDiff)) (xs ys zs : List ReviewComment)
         (a b : ReviewComment),
        keyOpt fm a = keyOpt fm b →
          buildGithubComments (xs ++ a :: (ys ++ b :: zs)) fm =
            buildGithubComments (xs ++ a :: (ys ++ zs)) fm) := by
  constructor
  · intro comments fm
    have hp := buildGo_pairwise fm comments []
    apply hp.imp
    intro a b hab heq2
    apply hab
    have h1 : a.path = b.path := congrArg Prod.fst heq2
    have h2 : a.line = b.line := congrArg Prod.snd heq2
    rw [mkDedupeKey, mkDedupeKey, h1, h2]
  · intro fm xs ys zs a b hab
    exact buildGo_dup fm xs ys zs a b [] hab

/-- C8 witness: the duplicate-removal equation of `c8_theorem` on a concrete
batch that contains the same annotation twice. -/
theorem c8_witness :
    buildGithubComments
        [{ file := "a.ts", line := 5, message := "m", severity := "HIGH" },
         { file := "a.ts", line := 5, message := "m", severity := "HIGH" }]
        (mkFileMap [{ path := "a.ts", patch := "+x", lineMap := [(1, 5)] }]) =
      buildGithubComments
        [{ file := "a.ts", line := 5, message := "m", severity := "HIGH" }]
        (mkFileMap [{ path := "a.ts", patch := "+x", lineMap := [(1, 5)] }]) :=
  c8_theorem.2 (mkFileMap [{ path := "a.ts", patch := "+x", lineMap := [(1, 5)] }])
    [] [] [] { file := "a.ts", line := 5, message := "m", severity := "HIGH" }
    { file := "a.ts", line := 5, message := "m", severity := "HIGH" } rfl

/-! ## C10 — the line map indexes exactly the `+` lines -/

/-- A line matched by the hunk-header regex starts with `@`, not `+`. -/
theorem hunk_not_plus (l : List Char) (c : Nat) (h : hunkCapture l = some c) :
    listStartsWith "+".data l = false := by
  have hsw : listStartsWith "@@ -".data l = true := by
    by_contra hne
    simp only [Bool.not_eq_true] at hne
    simp [hunkCapture, expectChars, hne] at h
  cases l with
  | nil =>
    rw [show "@@ -".data = '@' :: ['@', ' ', '-'] from rfl] at hsw
    simp [listStartsWith] at hsw
  | cons c0 cs =>
    rw [show "@@ -".data = '@' :: ['@', ' ', '-'] from rfl] at hsw
    simp only [listStartsWith, Bool.and_eq_true] at hsw
    have hc0 : c0 = '@' := by
      have := hsw.1
      simp only [beq_iff_eq] at this
      exact this.symm
    subst hc0
    rw [show "+".data = ['+'] from rfl]
    simp [listStartsWith]

/-- Shifting the running line counter past a non-`+` head line. -/
theorem keys_shift (rest : List (List Char)) (line : List Char) (idx k : Nat)
    (hp : listStartsWith "+".data line = false) :
    (∃ j l2, rest.get? j = some l2 ∧ k = (idx + 1) + j + 1 ∧
        listStartsWith "+".data l2 = true) ↔
      (∃ j l2, (line :: rest).get? j = some l2 ∧ k = idx + j + 1 ∧
        listStartsWith "+".data l2 = true) := by
  constructor
  · rintro ⟨j, l2, hg, hk, hpl⟩
    exact ⟨j + 1, l2, by simpa using hg, by omega, hpl⟩
  · rintro ⟨j, l2, hg, hk, hpl⟩
    cases j with
    | zero =>
      have hll : line = l2 := by simpa using hg
      rw [← hll] at hpl
      rw [hpl] at hp
      cases hp
    | succ j =>
      exact ⟨j, l2, by simpa using hg, by omega, hpl⟩

/-- The keys of the line map built from `lines` starting at offset `idx` are
exactly the 1-based offsets (shifted by `idx`) of the lines starting with `+`. -/
theorem blmGo_keys :
    ∀ (lines : List (List Char)) (idx : Nat) (nfl : Int) (k : Nat),
      k ∈ (buildLineMapGo lines idx nfl).map Prod.fst ↔
        ∃ j line, lines.get? j = some line ∧ k = idx + j + 1 ∧
          listStartsWith "+".data line = true := by
  intro lines
  induction lines with
  | nil => intro idx nfl k; simp [buildLineMapGo]
  | cons line rest ih =>
    intro idx nfl k
    cases hh : hunkCapture line with
    | some c =>
      simp only [buildLineMapGo, hh]
      rw [ih, keys_shift rest line idx k (hunk_not_plus line c hh)]
    | none =>
      by_cases hp : listStartsWith "+".data line = true
      · simp only [buildLineMapGo, hh, hp, if_true, List.map_cons]
        rw [List.mem_cons, ih]
        constructor
        · rintro (rfl | ⟨j, l2, hg, hk, hpl⟩)
          · exact ⟨0, line, by simp, by omega, hp⟩
          · exact ⟨j + 1, l2, by simpa using hg, by omega, hpl⟩
        · rintro ⟨j, l2, hg, hk, hpl⟩
          cases j with
          | zero => left; omega
          | succ j => right; exact ⟨j, l2, by simpa using hg, by omega, hpl⟩
      · simp only [Bool.not_eq_true] at hp
        by_cases hs : listStartsWith " ".data line = true
        · simp only [buildLineMapGo, hh, hp, hs, if_true, Bool.false_eq_true, if_false]
          rw [ih, keys_shift rest line idx k hp]
        · simp only [Bool.not_eq_true] at hs
          simp only [buildLineMapGo, hh, hp, hs, Bool.false_eq_true, if_false]
          rw [ih, keys_shift rest line idx k hp]

/-- C10: the line map has an entry for 1-based offset `k` exactly when the
`k`-th line of the patch begins with `+`; in particular the sanitizer keeps
`+++ b/<path>` header lines (they begin with `+` and with `-` respectively),
and such a kept line before the first hunk header receives a map entry
(offset 2 below). -/
theorem c10_theorem :
    (∀ (svc : DiffService) (patch : String) (k : Nat),
       k ∈ (svc.buildLineMap patch).map Prod.fst ↔
         1 ≤ k ∧ ∃ line, (splitLines patch.data).get? (k - 1) = some line ∧
           listStartsWith "+".data line = true) ∧
      (DiffService.mk 30000).cleanPatch
          "diff --git a/x b/x\nindex 1..2 100644\n--- a/x\n+++ b/x\n@@ -1,1 +1,2 @@\n x\n+y\n" =
        "--- a/x\n+++ b/x\n@@ -1,1 +1,2 @@\n x\n+y" ∧
      (DiffService.mk 30000).buildLineMap "--- a/x\n+++ b/x\n@@ -1,1 +1,2 @@\n x\n+y" =
        [(2, 1), (5, 2)] := by
  refine ⟨?_, by decide, by decide⟩
  intro svc patch k
  rw [DiffService.buildLineMap, blmGo_keys]
  constructor
  · rintro ⟨j, line, hg, hk, hp⟩
    refine ⟨by omega, line, ?_, hp⟩
    rw [show k - 1 = j by omega]
    exact hg
  · rintro ⟨h1, line, hg, hp⟩
    exact ⟨k - 1, line, hg, by omega, hp⟩

/-- C10 witness: the characterization instantiated at offset 2 of the patch
with a kept `+++ b/x` header line. -/
theorem c10_witness :
    2 ∈ ((DiffService.mk 30000).buildLineMap
        "--- a/x\n+++ b/x\n@@ -1,1 +1,2 @@\n x\n+y").map Prod.fst ↔
      1 ≤ 2 ∧ ∃ line,
        (splitLines ("--- a/x\n+++ b/x\n@@ -1,1 +1,2 @@\n x\n+y").data).get? (2 - 1) =
          some line ∧ listStartsWith "+".data line = true :=
  c10_theorem.1 (DiffService.mk 30000) "--- a/x\n+++ b/x\n@@ -1,1 +1,2 @@\n x\n+y" 2

/-! ## C1 — resolved lines and the target's line map -/

/-- A successful `Map.get` returns one of the map's values. -/
theorem mapGet_mem (m : List (String × FileDiff)) (k : String) (fd : FileDiff)
    (h : mapGet m k = some fd) : fd ∈ m.map Prod.snd := by
  unfold mapGet at h
  cases hf : m.find? (fun e => e.1 == k) with
  | none => rw [hf] at h; cases h
  | some e =>
    rw [hf] at h
    simp only [Option.map_some'] at h
    cases h
    exact List.mem_map_of_mem _ (List.mem_of_find?_eq_some hf)

/-- The normalized-then-raw lookup returns one of the map's values. -/
theorem lookupFileDiff_mem (fm : List (String × FileDiff)) (f : String) (fd : FileDiff)
    (h : lookupFileDiff fm f = some fd) : fd ∈ fm.map Prod.snd := by
  unfold lookupFileDiff at h
  cases hg : mapGet fm (normalisePath f) with
  | some fd2 => rw [hg] at h; cases h; exact mapGet_mem _ _ _ hg
  | none => rw [hg] at h; exact mapGet_mem _ _ _ h

/-- The clamp `reduce` stays within the candidate values. -/
theorem foldl_clampStep_mem (l : Int) :
    ∀ (vs : List Int) (init : Int), vs.foldl (clampStep l) init ∈ init :: vs := by
  intro vs
  induction vs with
  | nil => intro init; simp
  | cons c tl ih =>
    intro init
    rw [List.foldl_cons]
    rcases List.mem_cons.mp (ih (clampStep l init c)) with h | h
    · rw [h]
      unfold clampStep
      split
      · exact List.mem_cons_of_mem _ (List.mem_cons_self _ _)
      · exact List.mem_cons_self _ _
    · exact List.mem_cons_of_mem _ (List.mem_cons_of_mem _ h)

/-- When the line map is non-empty, the resolved line is one of its values. -/
theorem resolveLine_mem (fd : FileDiff) (l : Int)
    (hne : fd.lineMap.map Prod.snd ≠ []) :
    resolveLine fd l ∈ fd.lineMap.map Prod.snd := by
  unfold resolveLine
  by_cases hc : (fd.lineMap.map Prod.snd).contains l = true
  · rw [if_neg (by rw [hc]; simp)]
    simpa using hc
  · simp only [Bool.not_eq_true] at hc
    rw [if_pos (by rw [hc]; simpa using List.length_pos.mpr hne)]
    cases hm : fd.lineMap.map Prod.snd with
    | nil => exact absurd hm hne
    | cons v tl => exact foldl_clampStep_mem l tl v

/-- Soundness of the reconciliation loop: every emitted comment carries the
canonical path of the record it resolved against, and — whenever that
record's line map is non-empty — a line drawn from the map's values. -/
theorem buildGo_sound (fm : List (String × FileDiff)) :
    ∀ (comments : List ReviewComment) (seen : List String) (c : GithubComment),
      c ∈ buildGo fm comments seen →
      ∃ fd, fd ∈ fm.map Prod.snd ∧ c.path = fd.path ∧
        (fd.lineMap.map Prod.snd ≠ [] → c.line ∈ fd.lineMap.map Prod.snd) := by
  intro comments
  induction comments with
  | nil => intro seen c hc; simp [buildGo] at hc
  | cons raw rest ih =>
    intro seen c hc
    simp only [buildGo] at hc
    split at hc
    · exact ih seen c hc
    · next fd heq =>
      split at hc
      · exact ih seen c hc
      · rcases List.mem_cons.mp hc with rfl | htail
        · exact ⟨fd, lookupFileDiff_mem fm raw.file fd heq, rfl,
            fun hne => resolveLine_mem fd raw.line hne⟩
        · exact ih _ c htail

/-- C1 counterexample: parsing the truncated deletion-only diff under budget
15 yields one FileChange for `a.ts` with an *empty* line map, and an
annotation for `a.ts` at line 999 is emitted with line 999 — a line that is
not a value of that FileChange's line map (its value list being empty). -/
theorem c1_counterexample :
    ((DiffService.mk 15).parse
        "diff --git a/a.ts b/a.ts\n--- a/a.ts\n+++ b/a.ts\n@@ -1,2 +1,1 @@\n keep\n-gone\n").map
      FileDiff.lineMap = [[]] ∧
      buildGithubComments [{ file := "a.ts", line := 999, message := "m", severity := "HIGH" }]
          (mkFileMap ((DiffService.mk 15).parse
            "diff --git a/a.ts b/a.ts\n--- a/a.ts\n+++ b/a.ts\n@@ -1,2 +1,1 @@\n keep\n-gone\n")) =
        [{ path := "a.ts", line := 999, body := "🔴 **[HIGH]** m" }] ∧
      (((DiffService.mk 15).parse
        "diff --git a/a.ts b/a.ts\n--- a/a.ts\n+++ b/a.ts\n@@ -1,2 +1,1 @@\n keep\n-gone\n").map
        (fun fd => decide ((999 : Int) ∈ fd.lineMap.map Prod.snd))) = [false] := by
  refine ⟨by decide, by decide, by decide⟩

/-- C1 (amended): every comment emitted by the reconciler carries the
canonical path of the FileChange it resolved to, and its line is a value of
that FileChange's line map whenever the map is non-empty; when the map is
empty (possible when truncation leaves no `+` lines) the annotation's line
passes through unchecked. -/
theorem c1_theorem (fm : List (String × FileDiff)) (comments : List ReviewComment)
    (c : GithubComment) (hc : c ∈ buildGithubComments comments fm) :
    ∃ fd, fd ∈ fm.map Prod.snd ∧ c.path = fd.path ∧
      (fd.lineMap.map Prod.snd ≠ [] → c.line ∈ fd.lineMap.map Prod.snd) :=
  buildGo_sound fm comments [] c hc

/-- C1 witness: `c1_theorem` applied to the single comment emitted for a
one-record file map with a non-empty line map. -/
theorem c1_witness :
    ∃ fd, fd ∈ (mkFileMap [{ path := "a.ts", patch := "+x", lineMap := [(1, 1)] }]).map
        Prod.snd ∧
      ({ path := "a.ts", line := 1, body := mkBody "LOW" "m" } : GithubComment).path = fd.path ∧
      (fd.lineMap.map Prod.snd ≠ [] →
        ({ path := "a.ts", line := 1, body := mkBody "LOW" "m" } : GithubComment).line ∈
          fd.lineMap.map Prod.snd) :=
  c1_theorem (mkFileMap [{ path := "a.ts", patch := "+x", lineMap := [(1, 1)] }])
    [{ file := "a.ts", line := 9, message := "m", severity := "LOW" }]
    { path := "a.ts", line := 1, body := mkBody "LOW" "m" } (by decide)
